import Mathlib

/-!
Verification of the nested-document blob-externalization engine of
`topic_store` (`src/topic_store/database.py`).

The model embeds BSON-style documents as nested string-keyed association
lists (`Value.dict`), with binary payloads (`Value.binary`, modelling
`bson.binary.Binary`), blob handles (`Value.objectId`, modelling
`bson.objectid.ObjectId`) and ordered sequences (`Value.listV`) as leaves.
Python strings are embedded as `List Char`, so that `str.startswith` and
`str.replace` become the directly recursive `startsWithKey` and
`replaceAll` below.  The GridFS blob store is an explicit state (`FS`),
and the generic tree walker `MongoStorage.__apply_fn_to_nested_dict` is
embedded as a state-threading, possibly failing recursive function
(`none` models an uncaught Python exception escaping the walk).
-/

/-- A Python string (`str`), embedded as its character sequence. -/
abbrev Key := List Char

/-- A BSON-style document value: scalars, binary payloads
(`bson.binary.Binary`), object ids (`bson.objectid.ObjectId`, used as
GridFS blob handles), ordered sequences, and nested string-keyed
mappings. -/
inductive Value where
  | intV : Int → Value
  | strV : Key → Value
  | binary : List Nat → Value
  | objectId : Nat → Value
  | listV : List Value → Value
  | dict : List (Key × Value) → Value

/-- `str.startswith(pat)` on embedded strings. -/
def startsWithKey (s pat : Key) : Bool :=
  match s, pat with
  | _, [] => true
  | [], _ :: _ => false
  | c :: cs, p :: ps => c == p && startsWithKey cs ps

/-- `str.replace(pat, "")` on embedded strings: Python removes every
non-overlapping occurrence of `pat`, scanning left to right.  The empty
pattern is mapped to the identity (the engine only ever replaces the
non-empty marker). -/
def replaceAll (pat s : Key) : Key :=
  match s with
  | [] => []
  | c :: cs =>
    if h : pat ≠ [] ∧ startsWithKey (c :: cs) pat then
      replaceAll pat ((c :: cs).drop pat.length)
    else
      c :: replaceAll pat cs
termination_by s.length
decreasing_by
  · have hp : 1 ≤ pat.length := List.length_pos.mpr h.1
    simp only [List.length_drop, List.length_cons]
    omega
  · simp

/-- `pat in s` on embedded strings: `pat` occurs as a contiguous
subsequence of `s`. -/
def containsSeq (pat s : Key) : Bool :=
  match s with
  | [] => startsWithKey [] pat
  | c :: cs => startsWithKey (c :: cs) pat || containsSeq pat cs

/-- The reserved marker prefix `"__gridfs_file_"` for externalized keys. -/
def markerKey : Key := "__gridfs_file_".toList

/-- The GridFS blob store: a fresh-handle counter and an association of
handles to byte payloads (`gridfs.GridFS`). -/
structure FS where
  next : Nat
  blobs : List (Nat × List Nat)
  deriving DecidableEq

/-- `gridfs.GridFS.put`: store bytes under a fresh handle. -/
def FS.put (fs : FS) (b : List Nat) : Nat × FS :=
  (fs.next, ⟨fs.next + 1, (fs.next, b) :: fs.blobs⟩)

/-- `gridfs.GridFS.get(h).read()`: fetch the bytes of a handle; `none`
models the `gridfs.errors.NoFile` exception for an absent handle. -/
def FS.get (fs : FS) (h : Nat) : Option (List Nat) :=
  (fs.blobs.find? (fun p => p.1 == h)).map Prod.snd

/-- `gridfs.GridFS.delete`: drop every blob stored under the handle. -/
def FS.del (fs : FS) (h : Nat) : FS :=
  ⟨fs.next, fs.blobs.filter (fun p => decide (p.1 ≠ h))⟩

/-- Well-formedness of the blob store: every live handle is below the
fresh-handle counter. -/
def FS.WF (fs : FS) : Prop :=
  ∀ p ∈ fs.blobs, p.1 < fs.next

instance (fs : FS) : Decidable fs.WF := by
  unfold FS.WF; infer_instance

/-- Blob-store extension: the counter never decreases and every
resolvable handle keeps resolving to the same bytes. -/
def FS.ext (fs fs2 : FS) : Prop :=
  fs.next ≤ fs2.next ∧ ∀ h b, fs.get h = some b → fs2.get h = some b

/-- `MongoStorage.__apply_fn_to_nested_dict`: walk a nested mapping,
recursing into mapping-valued entries and applying `fn` to every other
(key, value) pair, threading the effect state `σ`; `none` models an
uncaught exception raised by `fn`.  The Python code renames the key in
place (`original_dict[fk] = original_dict.pop(k)`); the association-list
embedding replaces the entry by `(fk, fv)` at its position. -/
def applyFnToNestedDict (fn : Key → Value → σ → Option ((Key × Value) × σ)) :
    List (Key × Value) → σ → Option (List (Key × Value) × σ)
  | [], s => some ([], s)
  | (k, v) :: rest, s =>
    match v with
    | .dict d =>
      match applyFnToNestedDict fn d s with
      | none => none
      | some (d2, s2) =>
        match applyFnToNestedDict fn rest s2 with
        | none => none
        | some (rest2, s3) => some ((k, Value.dict d2) :: rest2, s3)
    | v =>
      match fn k v s with
      | none => none
      | some ((fk, fv), s2) =>
        match applyFnToNestedDict fn rest s2 with
        | none => none
        | some (rest2, s3) => some ((fk, fv) :: rest2, s3)

/-- The leaf transform `__grid_fs_binary_objects` inside
`MongoStorage.__gridfs_ify`: a `bson.binary.Binary` leaf is `put` into
the blob store and its key is prefixed with the reserved marker; every
other leaf is returned unchanged. -/
def gridFsBinaryObjects (k : Key) (v : Value) (fs : FS) :
    Option ((Key × Value) × FS) :=
  match v with
  | .binary b =>
    let p := fs.put b
    some ((markerKey ++ k, Value.objectId p.1), p.2)
  | v => some ((k, v), fs)

/-- `MongoStorage.__gridfs_ify` minus its `MongoDBParser` call.
Modelled from the spec: `MongoDBParser` (the record model's
encode-normalization pass, `topic_store/data.py`, not under `src/`) only
rewrites string encodings, so it is the identity on this structural
embedding. -/
def gridfsIfy (d : List (Key × Value)) (fs : FS) :
    Option (List (Key × Value) × FS) :=
  applyFnToNestedDict gridFsBinaryObjects d fs

/-- The leaf transform `__populate_grid_fs_files` inside
`MongoStorage.__ungridfs_ify`: a marker-prefixed key with an `ObjectId`
value is fetched from the blob store, with every occurrence of the marker
removed from the key (Python `str.replace` removes all occurrences, not
just the leading one); every other leaf is returned unchanged.  `none`
models the `gridfs.errors.NoFile` raised when the handle is absent. -/
def populateGridFsFiles (k : Key) (v : Value) (fs : FS) :
    Option ((Key × Value) × FS) :=
  if startsWithKey k markerKey then
    match v with
    | .objectId h =>
      match fs.get h with
      | none => none
      | some b => some ((replaceAll markerKey k, Value.binary b), fs)
    | v => some ((k, v), fs)
  else
    some ((k, v), fs)

/-- `MongoStorage.__ungridfs_ify`: walk the stored shape, fetching every
marker-prefixed blob handle back into a binary leaf. -/
def ungridfsIfy (d : List (Key × Value)) (fs : FS) :
    Option (List (Key × Value) × FS) :=
  applyFnToNestedDict populateGridFsFiles d fs

/-- No key of the nested mapping (at any mapping depth) contains the
reserved marker as a substring. -/
def noMarkerKeys : List (Key × Value) → Bool
  | [] => true
  | (k, v) :: rest =>
    !containsSeq markerKey k &&
    (match v with
     | .dict d => noMarkerKeys d
     | _ => true) &&
    noMarkerKeys rest

mutual

/-- A raw binary payload occurs somewhere in the value, looking inside
ordered sequences as well as nested mappings. -/
def containsBinaryDeep : Value → Bool
  | .binary _ => true
  | .listV vs => containsBinaryDeepL vs
  | .dict d => containsBinaryDeepD d
  | _ => false

/-- `containsBinaryDeep` over the elements of a sequence. -/
def containsBinaryDeepL : List Value → Bool
  | [] => false
  | v :: vs => containsBinaryDeep v || containsBinaryDeepL vs

/-- `containsBinaryDeep` over the entries of a mapping. -/
def containsBinaryDeepD : List (Key × Value) → Bool
  | [] => false
  | (_, v) :: rest => containsBinaryDeep v || containsBinaryDeepD rest

end

/-- No value sitting directly in a nested mapping (reachable through
mapping-valued entries alone, not through sequences) is a raw binary
payload. -/
def noDirectBinary : List (Key × Value) → Bool
  | [] => true
  | (_, v) :: rest =>
    (match v with
     | .binary _ => false
     | .dict d => noDirectBinary d
     | _ => true) &&
    noDirectBinary rest

/-- The externalization effect, in the claim's words, relating a record
to its stored shape under a final blob store `fs2`: the shape is
identical, every binary leaf has been replaced by a marker-prefixed key
whose value is a blob handle resolving in `fs2` to exactly the original
bytes (the handle returned by `put`), every mapping-valued entry is
recursed, and every other leaf is unchanged. -/
def externalizedRel (fs2 : FS) : List (Key × Value) → List (Key × Value) → Prop
  | [], d2 => d2 = []
  | (k, v) :: rest, d2 =>
    match v with
    | .binary b => ∃ h rest2, d2 = (markerKey ++ k, Value.objectId h) :: rest2 ∧
        fs2.get h = some b ∧ externalizedRel fs2 rest rest2
    | .dict dd => ∃ dd2 rest2, d2 = (k, Value.dict dd2) :: rest2 ∧
        externalizedRel fs2 dd dd2 ∧ externalizedRel fs2 rest rest2
    | v => ∃ rest2, d2 = (k, v) :: rest2 ∧ externalizedRel fs2 rest rest2

/-- The walker specification, in the spec's words: a new nested mapping
of identical shape where every non-mapping leaf has been passed through
`f`, and every mapping-valued entry has been walked recursively under
the same key without being passed to `f`. -/
def specMapLeaves (f : Key → Value → Key × Value) :
    List (Key × Value) → List (Key × Value)
  | [] => []
  | (k, v) :: rest =>
    match v with
    | .dict d => (k, Value.dict (specMapLeaves f d)) :: specMapLeaves f rest
    | v => f k v :: specMapLeaves f rest

/-- The number of non-mapping leaves of a nested mapping. -/
def specNumLeaves : List (Key × Value) → Nat
  | [] => 0
  | (_, v) :: rest =>
    match v with
    | .dict d => specNumLeaves d + specNumLeaves rest
    | _ => 1 + specNumLeaves rest

/-- A store operation observable in a `delete_by_id` run: a GridFS blob
delete or the MongoDB document delete. -/
inductive Ev where
  | fsDelete : Nat → Ev
  | docDelete : Nat → Ev
  deriving DecidableEq

/-- The document collection: an association of `_id` to stored
document. -/
abbrev Coll := List (Nat × List (Key × Value))

/-- `collection.find_one({"_id": i})`: `none` is Python `None`. -/
def findOne (i : Nat) (coll : Coll) : Option (List (Key × Value)) :=
  (coll.find? (fun p => p.1 == i)).map Prod.snd

/-- `collection.delete_one({"_id": i})`: remove the first matching
document, if any. -/
def deleteOne (i : Nat) (coll : Coll) : Coll :=
  coll.eraseP (fun p => p.1 == i)

/-- The leaf transform `__delete_gridfs_docs` inside
`MongoStorage.delete_by_id`: for a marker-prefixed key with an `ObjectId`
value, delete the blob (recording the call in the trace); every leaf is
returned unchanged (the transform runs purely for its side effect). -/
def deleteGridfsDocs (k : Key) (v : Value) :
    FS × List Ev → Option ((Key × Value) × (FS × List Ev))
  | (fs, tr) =>
    if startsWithKey k markerKey then
      match v with
      | .objectId h => some ((k, v), (fs.del h, tr ++ [Ev.fsDelete h]))
      | v => some ((k, v), (fs, tr))
    else
      some ((k, v), (fs, tr))

/-- The outcome of `MongoStorage.delete_by_id`.  `pyCrash` models the
uncaught Python exception raised when the record is absent:
`find_one` returns `None` and `__apply_fn_to_nested_dict` calls
`None.iteritems()`, an `AttributeError`; the code has no not-found
path.  `MongoDBReverseParser` is modelled from the spec: the record
model's decode-normalization pass (not under `src/`) only rewrites
string encodings, so it is the identity here. -/
inductive DeleteResult where
  | deleted : Coll → FS → DeleteResult
  | pyCrash : DeleteResult

/-- `MongoStorage.delete_by_id`: fetch the stored shape, walk it deleting
every marker-prefixed blob, then delete the document itself.  Returns the
trace of store operations in issue order together with the outcome. -/
def deleteById (i : Nat) (coll : Coll) (fs : FS) : List Ev × DeleteResult :=
  match findOne i coll with
  | none => ([], DeleteResult.pyCrash)
  | some doc =>
    match applyFnToNestedDict deleteGridfsDocs doc (fs, []) with
    | none => ([], DeleteResult.pyCrash)
    | some (_, (fs2, tr)) =>
      (tr ++ [Ev.docDelete i], DeleteResult.deleted (deleteOne i coll) fs2)

/-- The nested `_ts_meta` metadata mapping of a document, if present. -/
def tsMeta (doc : List (Key × Value)) : Option (List (Key × Value)) :=
  match (doc.find? (fun p => p.1 == "_ts_meta".toList)).map Prod.snd with
  | some (.dict m) => some m
  | _ => none

/-- The `_ts_meta.session` field of a document.  Modelled for
string-valued session identifiers, the only kind this program writes. -/
def sessionOf (doc : List (Key × Value)) : Option Key :=
  match tsMeta doc with
  | none => none
  | some m =>
    match (m.find? (fun p => p.1 == "session".toList)).map Prod.snd with
    | some (.strV s) => some s
    | _ => none

/-- The `_ts_meta.sys_time` field of a document. -/
def sysTimeOf (doc : List (Key × Value)) : Option Value :=
  match tsMeta doc with
  | none => none
  | some m => (m.find? (fun p => p.1 == "sys_time".toList)).map Prod.snd

/-- First-seen deduplication, preserving the order of first occurrence
(the pipeline processes documents in collection order). -/
def firstSeen : List Key → List Key
  | [] => []
  | k :: rest => k :: (firstSeen rest).filter (fun x => decide (x ≠ k))

/-- `MongoStorage.get_unique_sessions`: the aggregate pipeline
`$match {_ts_meta.session exists}` then
`$group {_id: session, sys_time: $first sys_time, count: $sum 1}`,
gathered into a mapping.  The MongoDB pipeline semantics (an external
collaborator, like GridFS) is modelled over the collection in document
order: per session, the first matching document's `sys_time` and the
number of matching documents. -/
def getUniqueSessions (docs : List (List (Key × Value))) :
    List (Key × (Option Value × Nat)) :=
  (firstSeen (docs.filterMap sessionOf)).map (fun s =>
    (s, ((docs.filter (fun d => sessionOf d == some s)).head?.bind sysTimeOf,
         (docs.filter (fun d => sessionOf d == some s)).length)))

/-- Association lookup in the result of `get_unique_sessions`. -/
def lookupSession (m : List (Key × (Option Value × Nat))) (s : Key) :
    Option (Option Value × Nat) :=
  (m.find? (fun p => p.1 == s)).map Prod.snd

/-- The record wrapper `topic_store.data.TopicStore` around a parsed
document, as constructed by the cursor and `find_one`. -/
structure TopicStore where
  dict : List (Key × Value)

/-- Failure of a cursor pull: `stopIteration` models the `StopIteration`
raised by the exhausted underlying `pymongo` cursor, `noFile` a GridFS
fetch failure during internalization. -/
inductive CursorErr where
  | stopIteration : CursorErr
  | noFile : CursorErr
  deriving DecidableEq

/-- `TopicStoreCursor`: wraps the remaining underlying result stream. -/
structure TopicStoreCursor where
  docs : List (List (Key × Value))

/-- `TopicStoreCursor.next`: materialize exactly one underlying element,
apply decode-normalization (`MongoDBReverseParser`, modelled from the
spec as the identity on this structural embedding) and then the
internalizer, and yield one `TopicStore`; on an exhausted stream the
underlying cursor raises `StopIteration`. -/
def cursorNext (fs : FS) (c : TopicStoreCursor) :
    Except CursorErr (TopicStore × TopicStoreCursor) :=
  match c.docs with
  | [] => Except.error CursorErr.stopIteration
  | doc :: rest =>
    match ungridfsIfy doc fs with
    | none => Except.error CursorErr.noFile
    | some (d2, _) => Except.ok (⟨d2⟩, ⟨rest⟩)

/-- A Python object-heap value for the mutation model of `insert_one`:
like `Value`, but nested mappings are references into an explicit heap,
so that sharing between the caller's record and the inserted copy is
observable. -/
inductive PValue where
  | intV : Int → PValue
  | strV : Key → PValue
  | binary : List Nat → PValue
  | objectId : Nat → PValue
  | listP : List PValue → PValue
  | dictRef : Nat → PValue

instance : Nonempty PValue := ⟨PValue.intV 0⟩

instance : Nonempty (Nat × List (Key × PValue)) := ⟨(0, [])⟩

/-- The object heap: dictionary addresses to dictionary contents. -/
abbrev Heap := List (Nat × List (Key × PValue))

/-- Heap read. -/
def hget (H : Heap) (a : Nat) : Option (List (Key × PValue)) :=
  (H.find? (fun p => p.1 == a)).map Prod.snd

/-- Heap write (update or insert at an address). -/
def hset (H : Heap) (a : Nat) (es : List (Key × PValue)) : Heap :=
  (a, es) :: H.filter (fun p => decide (p.1 ≠ a))

/-- An address unused by the heap. -/
def freshAddr (H : Heap) : Nat :=
  (H.map Prod.fst).foldr max 0 + 1

/-- The externalizer leaf transform on heap leaves (as in
`__grid_fs_binary_objects`): binaries are `put` and renamed, everything
else is unchanged. -/
def heapExtFn (k : Key) (v : PValue) (fs : FS) : (Key × PValue) × FS :=
  match v with
  | .binary b =>
    let p := fs.put b
    ((markerKey ++ k, PValue.objectId p.1), p.2)
  | v => ((k, v), fs)

mutual

/-- `__apply_fn_to_nested_dict` with the externalizer transform, on the
object heap: the dictionary at address `a` is rewritten in place,
recursing through `dictRef`-valued entries.  Returns the new heap, the
new blob store and the list of addresses written, in visit order; `none`
models non-termination on a cyclic structure (fuel exhaustion). -/
def walkHeap : Nat → Nat → Heap → FS → Option (Heap × FS × List Nat)
  | 0, _, _, _ => none
  | fuel + 1, a, H, fs =>
    match hget H a with
    | none => none
    | some entries =>
      match walkHeapEntries fuel entries H fs with
      | none => none
      | some (es2, H2, fs2, w) => some (hset H2 a es2, fs2, a :: w)

/-- One level of `walkHeap`: process the entries of a dictionary left to
right, recursing into `dictRef` values and transforming the other
leaves. -/
def walkHeapEntries : Nat → List (Key × PValue) → Heap → FS →
    Option (List (Key × PValue) × Heap × FS × List Nat)
  | _, [], H, fs => some ([], H, fs, [])
  | fuel, (k, v) :: rest, H, fs =>
    match v with
    | .dictRef r =>
      match walkHeap fuel r H fs with
      | none => none
      | some (H2, fs2, w1) =>
        match walkHeapEntries fuel rest H2 fs2 with
        | none => none
        | some (rest2, H3, fs3, w2) =>
          some ((k, PValue.dictRef r) :: rest2, H3, fs3, w1 ++ w2)
    | v =>
      let q := heapExtFn k v fs
      match walkHeapEntries fuel rest H q.2 with
      | none => none
      | some (rest2, H3, fs3, w2) => some (q.1 :: rest2, H3, fs3, w2)

end

/-- `MongoStorage.insert_one` on the object heap: shallow-copy the
caller's top-level mapping (`topic_store.dict.copy()`) to a fresh
address — sharing every nested object — then externalize the copy in
place with the walker.  `MongoDBParser` is modelled from the spec as the
identity (encode normalization only).  Returns the heap, blob store, the
copy's address and the written addresses. -/
def insertOneHeap (fuel : Nat) (H : Heap) (fs : FS) (a0 : Nat) :
    Option (Heap × FS × Nat × List Nat) :=
  match hget H a0 with
  | none => none
  | some es =>
    match walkHeap fuel (freshAddr H) (hset H (freshAddr H) es) fs with
    | none => none
    | some (H2, fs2, w) => some (H2, fs2, freshAddr H, w)

/-- The per-entry effect of externalization, in the claim's words: a
binary-valued entry has its key renamed with the reserved prefix and its
payload replaced by some blob handle; every other entry (including
`dictRef` entries) is unchanged. -/
def extRelEntry (before after : Key × PValue) : Prop :=
  match before.2 with
  | .binary _ => ∃ h, after = (markerKey ++ before.1, PValue.objectId h)
  | _ => after = before

/-- Entry-wise externalization effect on a dictionary's contents. -/
def extRelShallow (before after : List (Key × PValue)) : Prop :=
  List.Forall₂ extRelEntry before after

/-! ## Basic lemmas about the embedded string operations -/

theorem startsWithKey_append (pat k : Key) : startsWithKey (pat ++ k) pat = true := by
  induction pat with
  | nil => simp [startsWithKey]
  | cons p ps ih =>
    simp [startsWithKey, ih]

theorem startsWithKey_of_not_contains {pat s : Key}
    (h : containsSeq pat s = false) : startsWithKey s pat = false := by
  cases s with
  | nil => simpa [containsSeq] using h
  | cons c cs =>
    simp only [containsSeq, Bool.or_eq_false_iff] at h
    exact h.1

theorem containsSeq_tail {pat : Key} {c : Char} {cs : Key}
    (h : containsSeq pat (c :: cs) = false) : containsSeq pat cs = false := by
  simp only [containsSeq, Bool.or_eq_false_iff] at h
  exact h.2

theorem replaceAll_of_not_contains {pat : Key} :
    ∀ {s : Key}, containsSeq pat s = false → replaceAll pat s = s := by
  intro s
  induction s with
  | nil => intro _; simp [replaceAll]
  | cons c cs ih =>
    intro h
    rw [replaceAll]
    rw [dif_neg]
    · rw [ih (containsSeq_tail h)]
    · intro hc
      rw [startsWithKey_of_not_contains h] at hc
      exact Bool.false_ne_true hc.2

theorem replaceAll_append_self {pat k : Key} (hpat : pat ≠ [])
    (h : containsSeq pat k = false) : replaceAll pat (pat ++ k) = k := by
  cases pat with
  | nil => exact absurd rfl hpat
  | cons p ps =>
    rw [List.cons_append, replaceAll, dif_pos]
    · rw [show (p :: (ps ++ k)).drop (p :: ps).length = k by
        simpa using List.drop_left (p :: ps) k]
      exact replaceAll_of_not_contains h
    · exact ⟨hpat, by simpa using startsWithKey_append (p :: ps) k⟩

theorem markerKey_ne_nil : markerKey ≠ [] := by decide

/-! ## Basic lemmas about the blob store -/

theorem FS.get_put (fs : FS) (b : List Nat) :
    (fs.put b).2.get (fs.put b).1 = some b := by
  simp [FS.put, FS.get]

theorem FS.WF_put {fs : FS} (hwf : fs.WF) (b : List Nat) : (fs.put b).2.WF := by
  intro p hp
  simp only [FS.put, List.mem_cons] at hp
  rcases hp with rfl | hp
  · exact Nat.lt_succ_self _
  · exact Nat.lt_succ_of_lt (hwf p hp)

theorem FS.get_lt_next {fs : FS} (hwf : fs.WF) {h : Nat} {b : List Nat}
    (hg : fs.get h = some b) : h < fs.next := by
  simp only [FS.get, Option.map_eq_some'] at hg
  obtain ⟨p, hp, rfl⟩ := hg
  have hmem := List.mem_of_find?_eq_some hp
  have hpred := List.find?_some hp
  simp only [beq_iff_eq] at hpred
  subst hpred
  exact hwf p hmem

theorem FS.ext_refl (fs : FS) : fs.ext fs := ⟨le_rfl, fun _ _ h => h⟩

theorem FS.ext_trans {fs1 fs2 fs3 : FS} (h12 : fs1.ext fs2) (h23 : fs2.ext fs3) :
    fs1.ext fs3 :=
  ⟨le_trans h12.1 h23.1, fun h b hg => h23.2 h b (h12.2 h b hg)⟩

theorem FS.ext_put {fs : FS} (hwf : fs.WF) (b : List Nat) : fs.ext (fs.put b).2 := by
  refine ⟨Nat.le_succ _, fun h bb hg => ?_⟩
  have hlt := FS.get_lt_next hwf hg
  have hne : ¬((fun p => p.1 == h) (fs.next, b)) = true := by
    simp only [beq_iff_eq]
    omega
  have hfind : List.find? (fun p => p.1 == h) ((fs.next, b) :: fs.blobs) =
      List.find? (fun p => p.1 == h) fs.blobs := List.find?_cons_of_neg _ hne
  simp only [FS.put, FS.get] at hg ⊢
  rw [hfind]
  exact hg

/-! ## The tree walker refines the specification map (claim C3) -/

theorem applyFn_counts_spec (f : Key → Value → Key × Value) :
    ∀ (d : List (Key × Value)) (n : Nat),
      applyFnToNestedDict (fun k v (c : Nat) => some (f k v, c + 1)) d n =
        some (specMapLeaves f d, n + specNumLeaves d)
  | [], n => by
    simp [applyFnToNestedDict, specMapLeaves, specNumLeaves]
  | (k, Value.dict d) :: rest, n => by
    simp only [applyFnToNestedDict]
    simp only [applyFn_counts_spec f d, applyFn_counts_spec f rest]
    simp [specMapLeaves, specNumLeaves, Nat.add_assoc]
  | (k, Value.intV m) :: rest, n => by
    simp only [applyFnToNestedDict]
    simp only [applyFn_counts_spec f rest]
    simp [specMapLeaves, specNumLeaves, Nat.add_comm, Nat.add_assoc, Nat.add_left_comm]
  | (k, Value.strV s) :: rest, n => by
    simp only [applyFnToNestedDict]
    simp only [applyFn_counts_spec f rest]
    simp [specMapLeaves, specNumLeaves, Nat.add_comm, Nat.add_assoc, Nat.add_left_comm]
  | (k, Value.binary b) :: rest, n => by
    simp only [applyFnToNestedDict]
    simp only [applyFn_counts_spec f rest]
    simp [specMapLeaves, specNumLeaves, Nat.add_comm, Nat.add_assoc, Nat.add_left_comm]
  | (k, Value.objectId h) :: rest, n => by
    simp only [applyFnToNestedDict]
    simp only [applyFn_counts_spec f rest]
    simp [specMapLeaves, specNumLeaves, Nat.add_comm, Nat.add_assoc, Nat.add_left_comm]
  | (k, Value.listV vs) :: rest, n => by
    simp only [applyFnToNestedDict]
    simp only [applyFn_counts_spec f rest]
    simp [specMapLeaves, specNumLeaves, Nat.add_comm, Nat.add_assoc, Nat.add_left_comm]

/-! ## Round trip of externalization and internalization (claim C1) -/

theorem populate_marker_get {k : Key} {h : Nat} {b : List Nat} {fs : FS}
    (hk : containsSeq markerKey k = false) (hg : fs.get h = some b) :
    populateGridFsFiles (markerKey ++ k) (Value.objectId h) fs =
      some ((k, Value.binary b), fs) := by
  simp only [populateGridFsFiles, startsWithKey_append, if_true]
  rw [hg, replaceAll_append_self markerKey_ne_nil hk]

theorem populate_plain {k : Key} (v : Value) (fs : FS)
    (hk : containsSeq markerKey k = false) :
    populateGridFsFiles k v fs = some ((k, v), fs) := by
  simp [populateGridFsFiles, startsWithKey_of_not_contains hk]

theorem gridfs_roundtrip_aux :
    ∀ (d : List (Key × Value)) (fs : FS), fs.WF → noMarkerKeys d = true →
      ∃ d2 fs2, gridfsIfy d fs = some (d2, fs2) ∧ fs2.WF ∧ fs.ext fs2 ∧
        ∀ fs3, fs2.ext fs3 → ungridfsIfy d2 fs3 = some (d, fs3)
  | [], fs, hwf, _ => by
    refine ⟨[], fs, ?_, hwf, FS.ext_refl fs, ?_⟩
    · simp [gridfsIfy, applyFnToNestedDict]
    · intro fs3 _
      simp [ungridfsIfy, applyFnToNestedDict]
  | (k, Value.dict dd) :: rest, fs, hwf, hnm => by
    simp only [noMarkerKeys, Bool.and_eq_true, Bool.not_eq_true'] at hnm
    obtain ⟨⟨hck, hdd⟩, hrest⟩ := hnm
    obtain ⟨dd2, fsA, hgdd, hwfA, hextA, hintA⟩ := gridfs_roundtrip_aux dd fs hwf hdd
    obtain ⟨rest2, fs2, hgrest, hwf2, hext2, hintrest⟩ :=
      gridfs_roundtrip_aux rest fsA hwfA hrest
    refine ⟨(k, Value.dict dd2) :: rest2, fs2, ?_, hwf2, FS.ext_trans hextA hext2, ?_⟩
    · simp only [gridfsIfy] at hgdd hgrest ⊢
      simp only [applyFnToNestedDict, hgdd, hgrest]
    · intro fs3 h3
      have hddInt := hintA fs3 (FS.ext_trans hext2 h3)
      have hrestInt := hintrest fs3 h3
      simp only [ungridfsIfy] at hddInt hrestInt ⊢
      simp only [applyFnToNestedDict, hddInt, hrestInt]
  | (k, Value.binary b) :: rest, fs, hwf, hnm => by
    simp only [noMarkerKeys, Bool.and_eq_true, Bool.not_eq_true'] at hnm
    obtain ⟨⟨hck, _⟩, hrest⟩ := hnm
    obtain ⟨rest2, fs2, hgrest, hwf2, hext2, hintrest⟩ :=
      gridfs_roundtrip_aux rest (fs.put b).2 (FS.WF_put hwf b) hrest
    refine ⟨(markerKey ++ k, Value.objectId fs.next) :: rest2, fs2, ?_, hwf2,
      FS.ext_trans (FS.ext_put hwf b) hext2, ?_⟩
    · simp only [gridfsIfy] at hgrest ⊢
      simp only [applyFnToNestedDict, gridFsBinaryObjects, FS.put] at hgrest ⊢
      simp only [hgrest]
    · intro fs3 h3
      have hget3 : fs3.get fs.next = some b :=
        (FS.ext_trans hext2 h3).2 _ _ (FS.get_put fs b)
      have hhead := populate_marker_get hck hget3
      have hrestInt := hintrest fs3 h3
      simp only [ungridfsIfy] at hrestInt ⊢
      simp only [applyFnToNestedDict, hhead, hrestInt]
  | (k, Value.intV m) :: rest, fs, hwf, hnm => by
    simp only [noMarkerKeys, Bool.and_eq_true, Bool.not_eq_true'] at hnm
    obtain ⟨⟨hck, _⟩, hrest⟩ := hnm
    obtain ⟨rest2, fs2, hgrest, hwf2, hext2, hintrest⟩ :=
      gridfs_roundtrip_aux rest fs hwf hrest
    refine ⟨(k, Value.intV m) :: rest2, fs2, ?_, hwf2, hext2, ?_⟩
    · simp only [gridfsIfy] at hgrest ⊢
      simp only [applyFnToNestedDict, gridFsBinaryObjects, hgrest]
    · intro fs3 h3
      have hrestInt := hintrest fs3 h3
      simp only [ungridfsIfy] at hrestInt ⊢
      simp only [applyFnToNestedDict, populate_plain _ fs3 hck, hrestInt]
  | (k, Value.strV sv) :: rest, fs, hwf, hnm => by
    simp only [noMarkerKeys, Bool.and_eq_true, Bool.not_eq_true'] at hnm
    obtain ⟨⟨hck, _⟩, hrest⟩ := hnm
    obtain ⟨rest2, fs2, hgrest, hwf2, hext2, hintrest⟩ :=
      gridfs_roundtrip_aux rest fs hwf hrest
    refine ⟨(k, Value.strV sv) :: rest2, fs2, ?_, hwf2, hext2, ?_⟩
    · simp only [gridfsIfy] at hgrest ⊢
      simp only [applyFnToNestedDict, gridFsBinaryObjects, hgrest]
    · intro fs3 h3
      have hrestInt := hintrest fs3 h3
      simp only [ungridfsIfy] at hrestInt ⊢
      simp only [applyFnToNestedDict, populate_plain _ fs3 hck, hrestInt]
  | (k, Value.objectId ho) :: rest, fs, hwf, hnm => by
    simp only [noMarkerKeys, Bool.and_eq_true, Bool.not_eq_true'] at hnm
    obtain ⟨⟨hck, _⟩, hrest⟩ := hnm
    obtain ⟨rest2, fs2, hgrest, hwf2, hext2, hintrest⟩ :=
      gridfs_roundtrip_aux rest fs hwf hrest
    refine ⟨(k, Value.objectId ho) :: rest2, fs2, ?_, hwf2, hext2, ?_⟩
    · simp only [gridfsIfy] at hgrest ⊢
      simp only [applyFnToNestedDict, gridFsBinaryObjects, hgrest]
    · intro fs3 h3
      have hrestInt := hintrest fs3 h3
      simp only [ungridfsIfy] at hrestInt ⊢
      simp only [applyFnToNestedDict, populate_plain _ fs3 hck, hrestInt]
  | (k, Value.listV vs) :: rest, fs, hwf, hnm => by
    simp only [noMarkerKeys, Bool.and_eq_true, Bool.not_eq_true'] at hnm
    obtain ⟨⟨hck, _⟩, hrest⟩ := hnm
    obtain ⟨rest2, fs2, hgrest, hwf2, hext2, hintrest⟩ :=
      gridfs_roundtrip_aux rest fs hwf hrest
    refine ⟨(k, Value.listV vs) :: rest2, fs2, ?_, hwf2, hext2, ?_⟩
    · simp only [gridfsIfy] at hgrest ⊢
      simp only [applyFnToNestedDict, gridFsBinaryObjects, hgrest]
    · intro fs3 h3
      have hrestInt := hintrest fs3 h3
      simp only [ungridfsIfy] at hrestInt ⊢
      simp only [applyFnToNestedDict, populate_plain _ fs3 hck, hrestInt]

/-- **C1** (counterexample to the claim as stated): the round-trip law
fails for a record whose key contains the reserved marker internally.
Externalizing `{"a__gridfs_file_b": <binary [9]>}` and internalizing the
result yields `{"ab": <binary [9]>}` — `str.replace` removes every
occurrence of the marker, not just the prefixed one — which differs from
the original record, even though the blob store returned exactly the
bytes previously put. -/
theorem C1_roundtrip_counterexample :
    gridfsIfy [("a__gridfs_file_b".toList, Value.binary [9])] ⟨0, []⟩ =
      some ([(markerKey ++ "a__gridfs_file_b".toList, Value.objectId 0)],
            ⟨1, [(0, [9])]⟩) ∧
    ungridfsIfy [(markerKey ++ "a__gridfs_file_b".toList, Value.objectId 0)]
        ⟨1, [(0, [9])]⟩ =
      some ([("ab".toList, Value.binary [9])], ⟨1, [(0, [9])]⟩) ∧
    ("ab".toList : Key) ≠ "a__gridfs_file_b".toList := by
  refine ⟨?_, ?_, by decide⟩
  · simp [gridfsIfy, applyFnToNestedDict, gridFsBinaryObjects, FS.put]
  · simp [ungridfsIfy, applyFnToNestedDict, populateGridFsFiles, FS.get,
      markerKey, startsWithKey, replaceAll]

/-- **C1** (amended): for every record none of whose keys (at any mapping
depth) contains the reserved marker `__gridfs_file_` as a substring, and
every well-formed blob store, applying the internalizer
(`__ungridfs_ify`) to the result of the externalizer (`__gridfs_ify`)
succeeds and yields a mapping deep-structurally and byte-identical to the
original record. -/
theorem C1_roundtrip (d : List (Key × Value)) (fs : FS)
    (hwf : fs.WF) (hnm : noMarkerKeys d = true) :
    ∃ d2 fs2, gridfsIfy d fs = some (d2, fs2) ∧
      ungridfsIfy d2 fs2 = some (d, fs2) := by
  obtain ⟨d2, fs2, hg, _, _, hint⟩ := gridfs_roundtrip_aux d fs hwf hnm
  exact ⟨d2, fs2, hg, hint fs2 (FS.ext_refl fs2)⟩

/-- Witness for C1 at the record `{"c": <binary [9]>, "d": {"e": 5}}` and
the empty blob store. -/
theorem C1_roundtrip_witness :
    FS.WF ⟨0, []⟩ ∧
    noMarkerKeys [(['c'], Value.binary [9]),
                  (['d'], Value.dict [(['e'], Value.intV 5)])] = true ∧
    ∃ d2 fs2,
      gridfsIfy [(['c'], Value.binary [9]),
                 (['d'], Value.dict [(['e'], Value.intV 5)])] ⟨0, []⟩ =
        some (d2, fs2) ∧
      ungridfsIfy d2 fs2 =
        some ([(['c'], Value.binary [9]),
               (['d'], Value.dict [(['e'], Value.intV 5)])], fs2) :=
  ⟨by decide,
   by simp [noMarkerKeys, containsSeq, startsWithKey, markerKey],
   C1_roundtrip _ _ (by decide)
     (by simp [noMarkerKeys, containsSeq, startsWithKey, markerKey])⟩

/-! ## The stored shape and binary payloads (claim C2) -/

/-- **C2** (counterexample to the claim as stated): the stored shape can
contain a raw binary payload in its nested structure.  Externalizing
`{"a": [<binary [7]>]}` leaves the record unchanged — the walker hands
the whole sequence to the leaf transform, which only matches values that
are themselves `bson.binary.Binary` — so the resulting stored shape still
deep-contains a raw binary payload and no blob was put. -/
theorem C2_counterexample :
    gridfsIfy [(['a'], Value.listV [Value.binary [7]])] ⟨0, []⟩ =
      some ([(['a'], Value.listV [Value.binary [7]])], ⟨0, []⟩) ∧
    containsBinaryDeepD [(['a'], Value.listV [Value.binary [7]])] = true := by
  constructor
  · simp [gridfsIfy, applyFnToNestedDict, gridFsBinaryObjects]
  · simp [containsBinaryDeepD, containsBinaryDeep, containsBinaryDeepL]

theorem gridfsIfy_externalizes_aux :
    ∀ (d : List (Key × Value)) (fs : FS), fs.WF →
      ∃ d2 fs2, gridfsIfy d fs = some (d2, fs2) ∧ fs2.WF ∧ fs.ext fs2 ∧
        noDirectBinary d2 = true ∧
        ∀ fs3, fs2.ext fs3 → externalizedRel fs3 d d2
  | [], fs, hwf => by
    refine ⟨[], fs, ?_, hwf, FS.ext_refl fs, by simp [noDirectBinary], ?_⟩
    · simp [gridfsIfy, applyFnToNestedDict]
    · intro fs3 _
      simp [externalizedRel]
  | (k, Value.dict dd) :: rest, fs, hwf => by
    obtain ⟨dd2, fsA, hgdd, hwfA, hextA, hnbdd, hreldd⟩ :=
      gridfsIfy_externalizes_aux dd fs hwf
    obtain ⟨rest2, fs2, hgrest, hwf2, hext2, hnbrest, hrelrest⟩ :=
      gridfsIfy_externalizes_aux rest fsA hwfA
    refine ⟨(k, Value.dict dd2) :: rest2, fs2, ?_, hwf2,
      FS.ext_trans hextA hext2, ?_, ?_⟩
    · simp only [gridfsIfy] at hgdd hgrest ⊢
      simp only [applyFnToNestedDict, hgdd, hgrest]
    · simp [noDirectBinary, hnbdd, hnbrest]
    · intro fs3 h3
      simp only [externalizedRel]
      exact ⟨dd2, rest2, rfl, hreldd fs3 (FS.ext_trans hext2 h3), hrelrest fs3 h3⟩
  | (k, Value.binary b) :: rest, fs, hwf => by
    obtain ⟨rest2, fs2, hgrest, hwf2, hext2, hnbrest, hrelrest⟩ :=
      gridfsIfy_externalizes_aux rest (fs.put b).2 (FS.WF_put hwf b)
    refine ⟨(markerKey ++ k, Value.objectId fs.next) :: rest2, fs2, ?_, hwf2,
      FS.ext_trans (FS.ext_put hwf b) hext2, ?_, ?_⟩
    · simp only [gridfsIfy] at hgrest ⊢
      simp only [applyFnToNestedDict, gridFsBinaryObjects, FS.put] at hgrest ⊢
      simp only [hgrest]
    · simp [noDirectBinary, hnbrest]
    · intro fs3 h3
      have hget3 : fs3.get fs.next = some b :=
        (FS.ext_trans hext2 h3).2 _ _ (FS.get_put fs b)
      simp only [externalizedRel]
      exact ⟨fs.next, rest2, rfl, hget3, hrelrest fs3 h3⟩
  | (k, Value.intV m) :: rest, fs, hwf => by
    obtain ⟨rest2, fs2, hgrest, hwf2, hext2, hnbrest, hrelrest⟩ :=
      gridfsIfy_externalizes_aux rest fs hwf
    refine ⟨(k, Value.intV m) :: rest2, fs2, ?_, hwf2, hext2, ?_, ?_⟩
    · simp only [gridfsIfy] at hgrest ⊢
      simp only [applyFnToNestedDict, gridFsBinaryObjects, hgrest]
    · simp [noDirectBinary, hnbrest]
    · intro fs3 h3
      simp only [externalizedRel]
      exact ⟨rest2, rfl, hrelrest fs3 h3⟩
  | (k, Value.strV sv) :: rest, fs, hwf => by
    obtain ⟨rest2, fs2, hgrest, hwf2, hext2, hnbrest, hrelrest⟩ :=
      gridfsIfy_externalizes_aux rest fs hwf
    refine ⟨(k, Value.strV sv) :: rest2, fs2, ?_, hwf2, hext2, ?_, ?_⟩
    · simp only [gridfsIfy] at hgrest ⊢
      simp only [applyFnToNestedDict, gridFsBinaryObjects, hgrest]
    · simp [noDirectBinary, hnbrest]
    · intro fs3 h3
      simp only [externalizedRel]
      exact ⟨rest2, rfl, hrelrest fs3 h3⟩
  | (k, Value.objectId ho) :: rest, fs, hwf => by
    obtain ⟨rest2, fs2, hgrest, hwf2, hext2, hnbrest, hrelrest⟩ :=
      gridfsIfy_externalizes_aux rest fs hwf
    refine ⟨(k, Value.objectId ho) :: rest2, fs2, ?_, hwf2, hext2, ?_, ?_⟩
    · simp only [gridfsIfy] at hgrest ⊢
      simp only [applyFnToNestedDict, gridFsBinaryObjects, hgrest]
    · simp [noDirectBinary, hnbrest]
    · intro fs3 h3
      simp only [externalizedRel]
      exact ⟨rest2, rfl, hrelrest fs3 h3⟩
  | (k, Value.listV vs) :: rest, fs, hwf => by
    obtain ⟨rest2, fs2, hgrest, hwf2, hext2, hnbrest, hrelrest⟩ :=
      gridfsIfy_externalizes_aux rest fs hwf
    refine ⟨(k, Value.listV vs) :: rest2, fs2, ?_, hwf2, hext2, ?_, ?_⟩
    · simp only [gridfsIfy] at hgrest ⊢
      simp only [applyFnToNestedDict, gridFsBinaryObjects, hgrest]
    · simp [noDirectBinary, hnbrest]
    · intro fs3 h3
      simp only [externalizedRel]
      exact ⟨rest2, rfl, hrelrest fs3 h3⟩

/-- **C2** (amended): for every record and well-formed blob store,
externalization succeeds, the resulting stored shape contains no raw
binary payload as the direct value of any nested mapping reachable
through mapping-valued entries, and it stands in the externalization
relation to the record: every binary leaf has been replaced by a
marker-prefixed key whose value is the blob handle returned by `put`,
resolving in the resulting blob store to exactly the original bytes,
with every other entry unchanged (mapping-valued entries recursed).
Binary payloads nested inside ordered sequences are not externalized
and remain. -/
theorem C2_no_direct_binary (d : List (Key × Value)) (fs : FS) (hwf : fs.WF) :
    ∃ d2 fs2, gridfsIfy d fs = some (d2, fs2) ∧ noDirectBinary d2 = true ∧
      externalizedRel fs2 d d2 := by
  obtain ⟨d2, fs2, hg, _, _, hnb, hrel⟩ := gridfsIfy_externalizes_aux d fs hwf
  exact ⟨d2, fs2, hg, hnb, hrel fs2 (FS.ext_refl fs2)⟩

/-- Witness for C2 at the record
`{"c": <binary [9]>, "d": {"e": <binary [8]>}}` and the empty blob
store. -/
theorem C2_no_direct_binary_witness :
    FS.WF ⟨0, []⟩ ∧
    ∃ d2 fs2,
      gridfsIfy [(['c'], Value.binary [9]),
                 (['d'], Value.dict [(['e'], Value.binary [8])])] ⟨0, []⟩ =
        some (d2, fs2) ∧
      noDirectBinary d2 = true ∧
      externalizedRel fs2 [(['c'], Value.binary [9]),
                           (['d'], Value.dict [(['e'], Value.binary [8])])] d2 :=
  ⟨by decide, C2_no_direct_binary _ _ (by decide)⟩

/-! ## Sequences are atomic leaves for the walker (claim C9) -/

theorem populate_listV (k : Key) (vs : List Value) (fs : FS) :
    populateGridFsFiles k (Value.listV vs) fs = some ((k, Value.listV vs), fs) := by
  simp only [populateGridFsFiles]
  split <;> rfl

/-- **C9**: the tree walker treats ordered sequences as atomic leaves.
The externalizer leaf transform returns a sequence-valued leaf unchanged
without any blob put (a binary inside a sequence is never externalized);
the internalizer leaf transform returns a sequence-valued leaf unchanged
(a marker-prefixed entry inside a sequence element is never
internalized); and both walks pass a sequence-valued entry to the
transform as a whole, never recursing into its elements, whatever those
elements contain. -/
theorem C9_sequences_atomic :
    (∀ (k : Key) (vs : List Value) (fs : FS),
        gridFsBinaryObjects k (Value.listV vs) fs = some ((k, Value.listV vs), fs)) ∧
    (∀ (k : Key) (vs : List Value) (fs : FS),
        populateGridFsFiles k (Value.listV vs) fs = some ((k, Value.listV vs), fs)) ∧
    (∀ (k : Key) (vs : List Value) (rest : List (Key × Value)) (fs : FS),
        gridfsIfy ((k, Value.listV vs) :: rest) fs =
          (gridfsIfy rest fs).map (fun p => ((k, Value.listV vs) :: p.1, p.2))) ∧
    (∀ (k : Key) (vs : List Value) (rest : List (Key × Value)) (fs : FS),
        ungridfsIfy ((k, Value.listV vs) :: rest) fs =
          (ungridfsIfy rest fs).map (fun p => ((k, Value.listV vs) :: p.1, p.2))) := by
  refine ⟨fun k vs fs => rfl, populate_listV, ?_, ?_⟩
  · intro k vs rest fs
    simp only [gridfsIfy, applyFnToNestedDict, gridFsBinaryObjects]
    cases h : applyFnToNestedDict gridFsBinaryObjects rest fs with
    | none => simp
    | some p => simp
  · intro k vs rest fs
    simp only [ungridfsIfy, applyFnToNestedDict, populate_listV]
    cases h : applyFnToNestedDict populateGridFsFiles rest fs with
    | none => simp
    | some p => simp

/-- **C3**: the tree walker contract.  Run with a pure leaf transform
`f` (lifted to count its own applications), the walker succeeds and
produces exactly the specification map: a mapping of identical shape in
which every non-mapping leaf has been passed through `f` — the key
replaced by the new key, the value by the new value — and every
mapping-valued entry has been walked recursively under the same key;
the final counter shows `f` was applied exactly once per non-mapping
leaf, so mapping-valued entries are never passed to `f`. -/
theorem C3_walker_contract :
    ∀ (f : Key → Value → Key × Value) (d : List (Key × Value)) (n : Nat),
      applyFnToNestedDict (fun k v (c : Nat) => some (f k v, c + 1)) d n =
        some (specMapLeaves f d, n + specNumLeaves d) :=
  applyFn_counts_spec

/-! ## The internalizer leaf transform (claim C4) -/

theorem populate_non_handle (k : Key) (v : Value) (fs : FS)
    (hv : ∀ h, v ≠ Value.objectId h) :
    populateGridFsFiles k v fs = some ((k, v), fs) := by
  cases v with
  | objectId h => exact absurd rfl (hv h)
  | intV m => simp only [populateGridFsFiles]; split <;> rfl
  | strV s => simp only [populateGridFsFiles]; split <;> rfl
  | binary b => simp only [populateGridFsFiles]; split <;> rfl
  | listV vs => simp only [populateGridFsFiles]; split <;> rfl
  | dict d => simp only [populateGridFsFiles]; split <;> rfl

/-- **C4** (counterexample to the claim as stated): the stripped key is
not always the original pre-externalization key.  For the original key
`"a__gridfs_file_b"`, the externalized key is
`"__gridfs_file_a__gridfs_file_b"`; the internalizer transform strips
every occurrence of the marker (Python `str.replace`), yielding `"ab"`,
which differs from the original key. -/
theorem C4_internalizer_counterexample :
    populateGridFsFiles (markerKey ++ "a__gridfs_file_b".toList)
        (Value.objectId 0) ⟨1, [(0, [9])]⟩ =
      some (("ab".toList, Value.binary [9]), ⟨1, [(0, [9])]⟩) ∧
    ("ab".toList : Key) ≠ "a__gridfs_file_b".toList := by
  constructor
  · simp [populateGridFsFiles, FS.get, markerKey, startsWithKey, replaceAll]
  · decide

/-- **C4** (amended): the internalizer leaf transform.  If and only if
the key starts with the reserved marker and the value is an `ObjectId`
blob handle, the transform fetches the blob and returns the key with
every occurrence of the marker removed — which is the original
pre-externalization key whenever that key does not itself contain the
marker — paired with the fetched bytes; every other leaf is returned
unchanged. -/
theorem C4_internalizer_transform :
    (∀ (k : Key) (h : Nat) (b : List Nat) (fs : FS),
        startsWithKey k markerKey = true → fs.get h = some b →
        populateGridFsFiles k (Value.objectId h) fs =
          some ((replaceAll markerKey k, Value.binary b), fs)) ∧
    (∀ (k : Key) (h : Nat) (b : List Nat) (fs : FS),
        containsSeq markerKey k = false → fs.get h = some b →
        populateGridFsFiles (markerKey ++ k) (Value.objectId h) fs =
          some ((k, Value.binary b), fs)) ∧
    (∀ (k : Key) (v : Value) (fs : FS),
        startsWithKey k markerKey = false →
        populateGridFsFiles k v fs = some ((k, v), fs)) ∧
    (∀ (k : Key) (v : Value) (fs : FS),
        (∀ h, v ≠ Value.objectId h) →
        populateGridFsFiles k v fs = some ((k, v), fs)) := by
  refine ⟨?_, ?_, ?_, populate_non_handle⟩
  · intro k h b fs hks hg
    simp [populateGridFsFiles, hks, hg]
  · intro k h b fs hck hg
    exact populate_marker_get hck hg
  · intro k v fs hks
    simp [populateGridFsFiles, hks]

/-- Witness for C4: a marker-prefixed handle is fetched and stripped back
to the original key `"x"`; a plain leaf `("y", 2)` is unchanged. -/
theorem C4_internalizer_transform_witness :
    populateGridFsFiles (markerKey ++ ['x']) (Value.objectId 0) ⟨1, [(0, [3])]⟩ =
      some ((['x'], Value.binary [3]), ⟨1, [(0, [3])]⟩) ∧
    populateGridFsFiles ['y'] (Value.intV 2) ⟨0, []⟩ =
      some ((['y'], Value.intV 2), ⟨0, []⟩) :=
  ⟨C4_internalizer_transform.2.1 ['x'] 0 [3] _ (by decide) (by decide),
   C4_internalizer_transform.2.2.2 ['y'] (Value.intV 2) _
     (fun h hE => Value.noConfusion hE)⟩

/-! ## Deletion cascade ordering (claims C5, C6) -/

theorem deleteGridfsDocs_non_handle (k : Key) (v : Value) (fs : FS)
    (tr : List Ev) (hv : ∀ h, v ≠ Value.objectId h) :
    deleteGridfsDocs k v (fs, tr) = some ((k, v), (fs, tr)) := by
  cases v with
  | objectId h => exact absurd rfl (hv h)
  | intV m => simp only [deleteGridfsDocs]; split <;> rfl
  | strV s => simp only [deleteGridfsDocs]; split <;> rfl
  | binary b => simp only [deleteGridfsDocs]; split <;> rfl
  | listV vs => simp only [deleteGridfsDocs]; split <;> rfl
  | dict d => simp only [deleteGridfsDocs]; split <;> rfl

theorem deleteGridfsDocs_handle (k : Key) (h : Nat) (fs : FS) (tr : List Ev) :
    deleteGridfsDocs k (Value.objectId h) (fs, tr) =
      if startsWithKey k markerKey then
        some ((k, Value.objectId h), (fs.del h, tr ++ [Ev.fsDelete h]))
      else
        some ((k, Value.objectId h), (fs, tr)) := rfl

theorem deleteWalk_trace :
    ∀ (d : List (Key × Value)) (fs : FS) (tr0 : List Ev),
      ∃ fs2 tr,
        applyFnToNestedDict deleteGridfsDocs d (fs, tr0) =
          some (d, (fs2, tr0 ++ tr)) ∧
        ∀ e ∈ tr, ∃ h, e = Ev.fsDelete h
  | [], fs, tr0 => by
    refine ⟨fs, [], ?_, by simp⟩
    simp [applyFnToNestedDict]
  | (k, Value.dict dd) :: rest, fs, tr0 => by
    obtain ⟨fsA, trA, hdd, htrA⟩ := deleteWalk_trace dd fs tr0
    obtain ⟨fs2, trB, hrest, htrB⟩ := deleteWalk_trace rest fsA (tr0 ++ trA)
    refine ⟨fs2, trA ++ trB, ?_, ?_⟩
    · simp only [applyFnToNestedDict, hdd, hrest, List.append_assoc]
    · intro e he
      rcases List.mem_append.mp he with h1 | h2
      exacts [htrA e h1, htrB e h2]
  | (k, Value.objectId ho) :: rest, fs, tr0 => by
    by_cases hks : startsWithKey k markerKey = true
    · obtain ⟨fs2, trB, hrest, htrB⟩ :=
        deleteWalk_trace rest (fs.del ho) (tr0 ++ [Ev.fsDelete ho])
      refine ⟨fs2, Ev.fsDelete ho :: trB, ?_, ?_⟩
      · simp only [applyFnToNestedDict, deleteGridfsDocs_handle, hks, if_true, hrest]
        simp
      · intro e he
        rcases List.mem_cons.mp he with rfl | h2
        exacts [⟨ho, rfl⟩, htrB e h2]
    · obtain ⟨fs2, trB, hrest, htrB⟩ := deleteWalk_trace rest fs tr0
      refine ⟨fs2, trB, ?_, htrB⟩
      simp only [applyFnToNestedDict, deleteGridfsDocs_handle, hks, if_false, hrest,
        Bool.false_eq_true, ite_false]
  | (k, Value.intV m) :: rest, fs, tr0 => by
    obtain ⟨fs2, trB, hrest, htrB⟩ := deleteWalk_trace rest fs tr0
    refine ⟨fs2, trB, ?_, htrB⟩
    have hfn : deleteGridfsDocs k (Value.intV m) (fs, tr0) = some ((k, Value.intV m), (fs, tr0)) :=
      deleteGridfsDocs_non_handle k _ fs tr0 (fun h hE => Value.noConfusion hE)
    simp only [applyFnToNestedDict, hfn, hrest]
  | (k, Value.strV sv) :: rest, fs, tr0 => by
    obtain ⟨fs2, trB, hrest, htrB⟩ := deleteWalk_trace rest fs tr0
    refine ⟨fs2, trB, ?_, htrB⟩
    have hfn : deleteGridfsDocs k (Value.strV sv) (fs, tr0) = some ((k, Value.strV sv), (fs, tr0)) :=
      deleteGridfsDocs_non_handle k _ fs tr0 (fun h hE => Value.noConfusion hE)
    simp only [applyFnToNestedDict, hfn, hrest]
  | (k, Value.binary b) :: rest, fs, tr0 => by
    obtain ⟨fs2, trB, hrest, htrB⟩ := deleteWalk_trace rest fs tr0
    refine ⟨fs2, trB, ?_, htrB⟩
    have hfn : deleteGridfsDocs k (Value.binary b) (fs, tr0) = some ((k, Value.binary b), (fs, tr0)) :=
      deleteGridfsDocs_non_handle k _ fs tr0 (fun h hE => Value.noConfusion hE)
    simp only [applyFnToNestedDict, hfn, hrest]
  | (k, Value.listV vs) :: rest, fs, tr0 => by
    obtain ⟨fs2, trB, hrest, htrB⟩ := deleteWalk_trace rest fs tr0
    refine ⟨fs2, trB, ?_, htrB⟩
    have hfn : deleteGridfsDocs k (Value.listV vs) (fs, tr0) = some ((k, Value.listV vs), (fs, tr0)) :=
      deleteGridfsDocs_non_handle k _ fs tr0 (fun h hE => Value.noConfusion hE)
    simp only [applyFnToNestedDict, hfn, hrest]

/-- **C5**: deletion ordering.  For every stored record, `delete_by_id`
issues a trace consisting of blob-store deletes only, followed by the
single document-store delete of the record; every blob delete occurs
strictly before the record delete, and the record delete is never issued
first. -/
theorem C5_delete_ordering (i : Nat) (coll : Coll) (fs : FS)
    (doc : List (Key × Value)) (hfind : findOne i coll = some doc) :
    ∃ tr coll2 fs2,
      deleteById i coll fs = (tr ++ [Ev.docDelete i], DeleteResult.deleted coll2 fs2) ∧
      ∀ e ∈ tr, ∃ h, e = Ev.fsDelete h := by
  obtain ⟨fs2, tr, hwalk, htr⟩ := deleteWalk_trace doc fs []
  refine ⟨tr, deleteOne i coll, fs2, ?_, htr⟩
  simp only [deleteById, hfind, hwalk, List.nil_append]

/-- Witness for C5: deleting the stored record
`{_id 1 ↦ {"__gridfs_file_p": <handle 0>}}` emits the blob delete of
handle 0 and then the document delete of id 1. -/
theorem C5_delete_ordering_witness :
    findOne 1 [(1, [(markerKey ++ ['p'], Value.objectId 0)])] =
      some [(markerKey ++ ['p'], Value.objectId 0)] ∧
    ∃ tr coll2 fs2,
      deleteById 1 [(1, [(markerKey ++ ['p'], Value.objectId 0)])] ⟨1, [(0, [5])]⟩ =
        (tr ++ [Ev.docDelete 1], DeleteResult.deleted coll2 fs2) ∧
      ∀ e ∈ tr, ∃ h, e = Ev.fsDelete h :=
  ⟨rfl, C5_delete_ordering 1 _ _ _ rfl⟩

/-- **C6** (code evaluated at the failing input): deleting an identifier
absent from the collection.  `find_one` returns `None`,
`__apply_fn_to_nested_dict` calls `None.iteritems()` and the call crashes
with an uncaught `AttributeError` from the tree-walker step — the code
has no not-found report path — although no blob-store delete call is
issued (the trace is empty). -/
theorem C6_delete_absent_crashes :
    deleteById 5 [] ⟨1, [(0, [2])]⟩ = ([], DeleteResult.pyCrash) := rfl

/-! ## Session aggregation (claim C7) -/

theorem lookup_map_over (g : Key → Option Value × Nat) (s : Key) :
    ∀ L : List Key,
      lookupSession (L.map (fun x => (x, g x))) s =
        if s ∈ L then some (g s) else none
  | [] => by simp [lookupSession]
  | x :: L => by
    by_cases hx : x = s
    · subst hx
      simp [lookupSession, List.find?]
    · have hbe : (x == s) = false := by
        simpa using hx
      simp only [lookupSession, List.map_cons, List.find?, hbe]
      have ih := lookup_map_over g s L
      simp only [lookupSession] at ih
      rw [ih]
      have hsx : ¬s = x := fun h => hx h.symm
      simp [List.mem_cons, hsx]

theorem mem_firstSeen (s : Key) :
    ∀ L : List Key, s ∈ firstSeen L ↔ s ∈ L
  | [] => by simp [firstSeen]
  | x :: L => by
    by_cases hx : x = s
    · subst hx
      simp [firstSeen]
    · simp only [firstSeen, List.mem_cons, List.mem_filter]
      rw [show ∀ p q r : Prop, (p ∨ q ∧ r) ↔ (p ∨ q ∧ r) from fun _ _ _ => Iff.rfl]
      constructor
      · rintro (rfl | ⟨hmem, _⟩)
        · exact Or.inl rfl
        · exact Or.inr ((mem_firstSeen s L).mp hmem)
      · rintro (rfl | hmem)
        · exact Or.inl rfl
        · exact Or.inr ⟨(mem_firstSeen s L).mpr hmem, by simpa using fun h => hx h.symm⟩

/-- **C7**: session aggregation.  For every collection state,
`get_unique_sessions` maps each session identifier occurring in the
records' `_ts_meta.session` field to the `sys_time` of the first record
of that session together with the count of the session's records;
sessions not occurring are absent, and records without a session field
are excluded.  In particular, for three records of session `"S1"` at
times 1 < 2 < 3 and one record of session `"S2"` at time 4, it returns
`{"S1": {time 1, count 3}, "S2": {time 4, count 1}}`, a record without
any session being ignored. -/
theorem C7_session_aggregation :
    (∀ (docs : List (List (Key × Value))) (s : Key),
      lookupSession (getUniqueSessions docs) s =
        match docs.filter (fun d => sessionOf d == some s) with
        | [] => none
        | d :: ds => some (sysTimeOf d, ds.length + 1)) ∧
    getUniqueSessions
        [[("_ts_meta".toList, Value.dict
            [("session".toList, Value.strV "S1".toList),
             ("sys_time".toList, Value.intV 1)])],
         [("_ts_meta".toList, Value.dict
            [("session".toList, Value.strV "S1".toList),
             ("sys_time".toList, Value.intV 2)])],
         [("_ts_meta".toList, Value.dict
            [("session".toList, Value.strV "S1".toList),
             ("sys_time".toList, Value.intV 3)])],
         [("other".toList, Value.intV 0)],
         [("_ts_meta".toList, Value.dict
            [("session".toList, Value.strV "S2".toList),
             ("sys_time".toList, Value.intV 4)])]] =
      [("S1".toList, (some (Value.intV 1), 3)),
       ("S2".toList, (some (Value.intV 4), 1))] := by
  constructor
  · intro docs s
    have hlk := lookup_map_over
      (fun s => ((docs.filter (fun d => sessionOf d == some s)).head?.bind sysTimeOf,
                 (docs.filter (fun d => sessionOf d == some s)).length)) s
      (firstSeen (docs.filterMap sessionOf))
    simp only [getUniqueSessions]
    rw [hlk]
    by_cases hmem : s ∈ docs.filterMap sessionOf
    · rw [if_pos ((mem_firstSeen s _).mpr hmem)]
      obtain ⟨d0, hd0, hsd0⟩ := List.mem_filterMap.mp hmem
      have hne : docs.filter (fun d => sessionOf d == some s) ≠ [] := by
        intro hnil
        have := List.filter_eq_nil_iff.mp hnil d0 hd0
        simp [hsd0] at this
      cases hf : docs.filter (fun d => sessionOf d == some s) with
      | nil => exact absurd hf hne
      | cons d ds => simp [hf]
    · rw [if_neg (fun hmemF => hmem ((mem_firstSeen s _).mp hmemF))]
      cases hf : docs.filter (fun d => sessionOf d == some s) with
      | nil => rfl
      | cons d ds =>
        exfalso
        apply hmem
        have hdmem : d ∈ docs.filter (fun d => sessionOf d == some s) := by
          rw [hf]; exact List.mem_cons_self d ds
        have hmf := List.mem_filter.mp hdmem
        exact List.mem_filterMap.mpr ⟨d, hmf.1, by simpa using hmf.2⟩
  · rfl

/-! ## Lazy cursor exhaustion (claim C8) -/

/-- **C8**: cursor exhaustion.  A pull on a `TopicStoreCursor` whose
underlying stream has no more elements fails with the defined
`StopIteration` condition; before exhaustion, each pull materializes
exactly the first underlying element, applies decode-normalization and
the internalizer to it, and yields exactly one record, leaving the rest
of the stream. -/
theorem C8_cursor_exhaustion :
    (∀ fs : FS, cursorNext fs ⟨[]⟩ = Except.error CursorErr.stopIteration) ∧
    (∀ (fs : FS) (doc : List (Key × Value)) (rest : List (List (Key × Value)))
        (d2 : List (Key × Value)) (fs2 : FS),
        ungridfsIfy doc fs = some (d2, fs2) →
        cursorNext fs ⟨doc :: rest⟩ = Except.ok (⟨d2⟩, ⟨rest⟩)) := by
  refine ⟨fun fs => rfl, ?_⟩
  intro fs doc rest d2 fs2 h
  simp [cursorNext, h]

/-- Witness for C8: the exhausted cursor raises; pulling on a one-element
stream internalizes the stored shape back to `{"z": <binary [5]>}`. -/
theorem C8_cursor_exhaustion_witness :
    cursorNext ⟨0, []⟩ ⟨[]⟩ = Except.error CursorErr.stopIteration ∧
    cursorNext ⟨1, [(0, [5])]⟩ ⟨[[(markerKey ++ ['z'], Value.objectId 0)]]⟩ =
      Except.ok (⟨[(['z'], Value.binary [5])]⟩, ⟨[]⟩) :=
  ⟨C8_cursor_exhaustion.1 ⟨0, []⟩,
   C8_cursor_exhaustion.2 _ _ [] _ ⟨1, [(0, [5])]⟩
     (by simp [ungridfsIfy, applyFnToNestedDict, populateGridFsFiles, FS.get,
           markerKey, startsWithKey, replaceAll])⟩

/-! ## The object-heap model of `insert_one` (claim C10) -/

theorem hget_hset_same (H : Heap) (a : Nat) (es : List (Key × PValue)) :
    hget (hset H a es) a = some es := by
  simp [hget, hset, List.find?]

theorem find_filter_ne {a b : Nat} (hne : b ≠ a) :
    ∀ H : Heap,
      List.find? (fun p => p.1 == b) (H.filter (fun p => !decide (p.1 = a))) =
        List.find? (fun p => p.1 == b) H
  | [] => rfl
  | p :: H => by
    by_cases hpa : p.1 = a
    · have hpb : (p.1 == b) = false := by
        simp only [beq_eq_false_iff_ne, ne_eq, hpa]
        exact fun h => hne h.symm
      have hcond : (!decide (p.1 = a)) = false := by simp [hpa]
      simp only [List.filter_cons, hcond, Bool.false_eq_true, if_false]
      simp only [List.find?, hpb]
      exact find_filter_ne hne H
    · simp only [List.filter_cons]
      rw [if_pos (by simpa using hpa)]
      simp only [List.find?]
      cases hpb : (p.1 == b) with
      | true => rfl
      | false => exact find_filter_ne hne H

theorem hget_hset_ne (H : Heap) (a : Nat) (es : List (Key × PValue))
    {b : Nat} (hne : b ≠ a) : hget (hset H a es) b = hget H b := by
  have hhd : ((a, es).1 == b) = false := by
    simpa using fun h => hne h.symm
  simp only [hget, hset, List.find?, hhd, ne_eq, decide_not]
  rw [find_filter_ne hne H]

theorem hget_lt_freshAddr :
    ∀ (H : Heap) (a : Nat), (∃ E, hget H a = some E) → a < freshAddr H := by
  intro H
  induction H with
  | nil =>
    intro a hE
    obtain ⟨E, h⟩ := hE
    simp [hget] at h
  | cons p Ht ih =>
    intro a hE
    obtain ⟨E, h⟩ := hE
    simp only [hget, List.find?] at h
    by_cases hpa : (p.1 == a) = true
    · have hp : p.1 = a := by simpa using hpa
      simp only [freshAddr, List.map_cons, List.foldr_cons]
      exact Nat.lt_succ_of_le (hp ▸ Nat.le_max_left _ _)
    · rw [Bool.not_eq_true] at hpa
      rw [hpa] at h
      have ih2 := ih a ⟨E, by simpa [hget] using h⟩
      simp only [freshAddr, List.map_cons, List.foldr_cons] at ih2 ⊢
      exact Nat.lt_succ_of_le
        (le_trans (Nat.le_of_lt_succ ih2) (Nat.le_max_right _ _))

/-! Inversion lemmas for the heap walker. -/

theorem walkHeap_zero (a : Nat) (H : Heap) (fs : FS) :
    walkHeap 0 a H fs = none := by
  simp [walkHeap]

theorem walkHeapEntries_nil_eq (fuel : Nat) (H : Heap) (fs : FS) :
    walkHeapEntries fuel [] H fs = some ([], H, fs, []) := by
  simp [walkHeapEntries]

theorem walkHeap_succ_inv {fuel a : Nat} {H : Heap} {fs : FS} {H2 : Heap}
    {fs2 : FS} {w : List Nat}
    (h : walkHeap (fuel + 1) a H fs = some (H2, fs2, w)) :
    ∃ entries es2 HE wE, hget H a = some entries ∧
      walkHeapEntries fuel entries H fs = some (es2, HE, fs2, wE) ∧
      H2 = hset HE a es2 ∧ w = a :: wE := by
  rw [walkHeap] at h
  cases hE : hget H a with
  | none => simp only [hE] at h; exact absurd h (by simp)
  | some entries =>
    simp only [hE] at h
    cases hW : walkHeapEntries fuel entries H fs with
    | none => simp only [hW] at h; exact absurd h (by simp)
    | some q =>
      obtain ⟨es2, HE, fsE, wE⟩ := q
      simp only [hW, Option.some.injEq, Prod.mk.injEq] at h
      obtain ⟨hH2, hfs, hw⟩ := h
      exact ⟨entries, es2, HE, wE, rfl, hfs ▸ hW, hH2.symm, hw.symm⟩

theorem walkHeapEntries_inv_ref {fuel : Nat} {k : Key} {r : Nat}
    {rest : List (Key × PValue)} {H : Heap} {fs : FS}
    {es2 : List (Key × PValue)} {H2 : Heap} {fs2 : FS} {w : List Nat}
    (h : walkHeapEntries fuel ((k, PValue.dictRef r) :: rest) H fs =
      some (es2, H2, fs2, w)) :
    ∃ HA fsA w1 rest2 w2,
      walkHeap fuel r H fs = some (HA, fsA, w1) ∧
      walkHeapEntries fuel rest HA fsA = some (rest2, H2, fs2, w2) ∧
      es2 = (k, PValue.dictRef r) :: rest2 ∧ w = w1 ++ w2 := by
  rw [walkHeapEntries] at h
  cases hC : walkHeap fuel r H fs with
  | none => simp only [hC] at h; exact absurd h (by simp)
  | some q =>
    obtain ⟨HA, fsA, w1⟩ := q
    simp only [hC] at h
    cases hR : walkHeapEntries fuel rest HA fsA with
    | none => simp only [hR] at h; exact absurd h (by simp)
    | some q2 =>
      obtain ⟨rest2, H3, fs3, w2⟩ := q2
      simp only [hR, Option.some.injEq, Prod.mk.injEq] at h
      obtain ⟨hes, hH, hfs, hw⟩ := h
      exact ⟨HA, fsA, w1, rest2, w2, rfl, by rw [hH, hfs] at hR; exact hR,
        hes.symm, hw.symm⟩

theorem walkHeapEntries_inv_leaf {fuel : Nat} {k : Key} {v : PValue}
    {rest : List (Key × PValue)} {H : Heap} {fs : FS}
    {es2 : List (Key × PValue)} {H2 : Heap} {fs2 : FS} {w : List Nat}
    (hv : ∀ r, v ≠ PValue.dictRef r)
    (h : walkHeapEntries fuel ((k, v) :: rest) H fs = some (es2, H2, fs2, w)) :
    ∃ rest2,
      walkHeapEntries fuel rest H (heapExtFn k v fs).2 =
        some (rest2, H2, fs2, w) ∧
      es2 = (heapExtFn k v fs).1 :: rest2 := by
  have hstep : walkHeapEntries fuel ((k, v) :: rest) H fs =
      match walkHeapEntries fuel rest H (heapExtFn k v fs).2 with
      | none => none
      | some (rest2, H3, fs3, w2) =>
        some ((heapExtFn k v fs).1 :: rest2, H3, fs3, w2) := by
    cases v with
    | dictRef r => exact absurd rfl (hv r)
    | intV m =>
      rw [walkHeapEntries]
      exact fun r hE => PValue.noConfusion hE
    | strV sv =>
      rw [walkHeapEntries]
      exact fun r hE => PValue.noConfusion hE
    | binary bb =>
      rw [walkHeapEntries]
      exact fun r hE => PValue.noConfusion hE
    | objectId ho =>
      rw [walkHeapEntries]
      exact fun r hE => PValue.noConfusion hE
    | listP vs =>
      rw [walkHeapEntries]
      exact fun r hE => PValue.noConfusion hE
  rw [hstep] at h
  cases hR : walkHeapEntries fuel rest H (heapExtFn k v fs).2 with
  | none => simp only [hR] at h; exact absurd h (by simp)
  | some q2 =>
    obtain ⟨rest2, H3, fs3, w2⟩ := q2
    simp only [hR, Option.some.injEq, Prod.mk.injEq] at h
    obtain ⟨hes, hH, hfs, hw⟩ := h
    exact ⟨rest2, by rw [hH, hfs, hw], hes.symm⟩

/-- The walker writes only the addresses it reports as written: every
other address keeps its heap content. -/
theorem heap_frame_all : ∀ fuel : Nat,
    (∀ (a : Nat) (H : Heap) (fs : FS) (H2 : Heap) (fs2 : FS) (w : List Nat),
      walkHeap fuel a H fs = some (H2, fs2, w) →
      ∀ b, b ∉ w → hget H2 b = hget H b) ∧
    (∀ (es : List (Key × PValue)) (H : Heap) (fs : FS)
      (es2 : List (Key × PValue)) (H2 : Heap) (fs2 : FS) (w : List Nat),
      walkHeapEntries fuel es H fs = some (es2, H2, fs2, w) →
      ∀ b, b ∉ w → hget H2 b = hget H b) := by
  intro fuel
  induction fuel with
  | zero =>
    constructor
    · intro a H fs H2 fs2 w hrun
      rw [walkHeap_zero] at hrun
      exact absurd hrun (by simp)
    · intro es
      induction es with
      | nil =>
        intro H fs es2 H2 fs2 w hrun b _
        rw [walkHeapEntries_nil_eq] at hrun
        simp only [Option.some.injEq, Prod.mk.injEq] at hrun
        rw [hrun.2.1]
      | cons e rest ih =>
        obtain ⟨k, v⟩ := e
        intro H fs es2 H2 fs2 w hrun b hb
        rcases v with m | sv | bb | ho | vs | r
        case dictRef =>
          obtain ⟨HA, fsA, w1, rest2, w2, hC, _, _, _⟩ :=
            walkHeapEntries_inv_ref hrun
          rw [walkHeap_zero] at hC
          exact absurd hC (by simp)
        all_goals
          obtain ⟨rest2, hR, _⟩ :=
            walkHeapEntries_inv_leaf (fun r hE => PValue.noConfusion hE) hrun
          exact ih H _ rest2 H2 fs2 w hR b hb
  | succ f ihf =>
    have hQ : ∀ (a : Nat) (H : Heap) (fs : FS) (H2 : Heap) (fs2 : FS)
        (w : List Nat),
        walkHeap (f + 1) a H fs = some (H2, fs2, w) →
        ∀ b, b ∉ w → hget H2 b = hget H b := by
      intro a H fs H2 fs2 w hrun b hb
      obtain ⟨entries, es2, HE, wE, _, hW, hH2, hw⟩ := walkHeap_succ_inv hrun
      subst hH2
      subst hw
      have hba : b ≠ a := fun h => hb (h ▸ List.mem_cons_self a wE)
      have hbw : b ∉ wE := fun h => hb (List.mem_cons_of_mem a h)
      rw [hget_hset_ne HE a es2 hba]
      exact ihf.2 entries H fs es2 HE fs2 wE hW b hbw
    refine ⟨hQ, ?_⟩
    intro es
    induction es with
    | nil =>
      intro H fs es2 H2 fs2 w hrun b _
      rw [walkHeapEntries_nil_eq] at hrun
      simp only [Option.some.injEq, Prod.mk.injEq] at hrun
      rw [hrun.2.1]
    | cons e rest ih =>
      obtain ⟨k, v⟩ := e
      intro H fs es2 H2 fs2 w hrun b hb
      rcases v with m | sv | bb | ho | vs | r
      case dictRef =>
        obtain ⟨HA, fsA, w1, rest2, w2, hC, hR, _, hw⟩ :=
          walkHeapEntries_inv_ref hrun
        subst hw
        have hb1 : b ∉ w1 := fun h => hb (List.mem_append.mpr (Or.inl h))
        have hb2 : b ∉ w2 := fun h => hb (List.mem_append.mpr (Or.inr h))
        rw [ih HA fsA rest2 H2 fs2 w2 hR b hb2]
        exact hQ r H fs HA fsA w1 hC b hb1
      all_goals
        obtain ⟨rest2, hR, _⟩ :=
          walkHeapEntries_inv_leaf (fun r hE => PValue.noConfusion hE) hrun
        exact ih H _ rest2 H2 fs2 w hR b hb



theorem extRelEntry_trans {e1 e2 e3 : Key × PValue}
    (h12 : extRelEntry e1 e2) (h23 : extRelEntry e2 e3) : extRelEntry e1 e3 := by
  obtain ⟨k1, v1⟩ := e1
  cases v1 with
  | binary b =>
    obtain ⟨h, he2⟩ := h12
    subst he2
    exact ⟨h, h23⟩
  | intV m =>
    rw [show e2 = (k1, PValue.intV m) from h12] at h23
    exact h23
  | strV sv =>
    rw [show e2 = (k1, PValue.strV sv) from h12] at h23
    exact h23
  | objectId ho =>
    rw [show e2 = (k1, PValue.objectId ho) from h12] at h23
    exact h23
  | listP vs =>
    rw [show e2 = (k1, PValue.listP vs) from h12] at h23
    exact h23
  | dictRef r =>
    rw [show e2 = (k1, PValue.dictRef r) from h12] at h23
    exact h23

theorem extRelShallow_trans :
    ∀ {E1 E2 E3 : List (Key × PValue)},
      extRelShallow E1 E2 → extRelShallow E2 E3 → extRelShallow E1 E3 := by
  intro E1 E2 E3 h12
  induction h12 generalizing E3 with
  | nil =>
    intro h23
    cases h23
    exact List.Forall₂.nil
  | cons hhead htail ih =>
    intro h23
    cases h23 with
    | cons hhead2 htail2 =>
      exact List.Forall₂.cons (extRelEntry_trans hhead hhead2) (ih htail2)

/-- What the externalizing walk does to every written address: the
content before the walk relates entry-wise to the content after
(binary-valued entries renamed with the marker and replaced by a blob
handle, everything else unchanged), and every dictionary referenced from
a written dictionary is itself written.  Addresses reachable more than
once (ordinary Python aliasing) are re-walked; the second pass finds the
already-renamed handles and leaves them alone, so no multiplicity
hypothesis is needed. -/
theorem heap_spec_all : ∀ fuel : Nat,
    (∀ (a : Nat) (H : Heap) (fs : FS) (H2 : Heap) (fs2 : FS) (w : List Nat),
      walkHeap fuel a H fs = some (H2, fs2, w) →
      a ∈ w ∧
      ∀ b ∈ w, ∃ E1 E2, hget H b = some E1 ∧ hget H2 b = some E2 ∧
        extRelShallow E1 E2 ∧ ∀ k r, (k, PValue.dictRef r) ∈ E1 → r ∈ w) ∧
    (∀ (es : List (Key × PValue)) (H : Heap) (fs : FS)
      (es2 : List (Key × PValue)) (H2 : Heap) (fs2 : FS) (w : List Nat),
      walkHeapEntries fuel es H fs = some (es2, H2, fs2, w) →
      extRelShallow es es2 ∧
      (∀ k r, (k, PValue.dictRef r) ∈ es → r ∈ w) ∧
      ∀ b ∈ w, ∃ E1 E2, hget H b = some E1 ∧ hget H2 b = some E2 ∧
        extRelShallow E1 E2 ∧ ∀ k r, (k, PValue.dictRef r) ∈ E1 → r ∈ w) := by
  intro fuel
  induction fuel with
  | zero =>
    constructor
    · intro a H fs H2 fs2 w hrun
      rw [walkHeap_zero] at hrun
      exact absurd hrun (by simp)
    · intro es
      induction es with
      | nil =>
        intro H fs es2 H2 fs2 w hrun
        rw [walkHeapEntries_nil_eq] at hrun
        simp only [Option.some.injEq, Prod.mk.injEq] at hrun
        obtain ⟨hes, hH, hfs, hw⟩ := hrun
        subst hes; subst hH; subst hfs; subst hw
        exact ⟨List.Forall₂.nil,
          fun k r hmem => absurd hmem (List.not_mem_nil _),
          fun b hb => absurd hb (List.not_mem_nil _)⟩
      | cons e rest ih =>
        obtain ⟨k, v⟩ := e
        intro H fs es2 H2 fs2 w hrun
        rcases v with m | sv | bb | ho | vs | r
        case dictRef =>
          obtain ⟨HA, fsA, w1, rest2, w2, hC, _, _, _⟩ :=
            walkHeapEntries_inv_ref hrun
          rw [walkHeap_zero] at hC
          exact absurd hC (by simp)
        all_goals
          obtain ⟨rest2, hR, hes⟩ :=
            walkHeapEntries_inv_leaf (fun r hE => PValue.noConfusion hE) hrun
          subst hes
          obtain ⟨hrel2, hclo2, hperb2⟩ := ih H _ rest2 H2 fs2 w hR
          refine ⟨List.Forall₂.cons ?_ hrel2, ?_, hperb2⟩
          · first | exact ⟨fs.next, rfl⟩ | rfl
          · intro k2 r2 hmem
            rcases List.mem_cons.mp hmem with hE | hm2
            · exact PValue.noConfusion (congrArg Prod.snd hE)
            · exact hclo2 k2 r2 hm2
  | succ f ihf =>
    have hQ : ∀ (a : Nat) (H : Heap) (fs : FS) (H2 : Heap) (fs2 : FS)
        (w : List Nat),
        walkHeap (f + 1) a H fs = some (H2, fs2, w) →
        a ∈ w ∧
        ∀ b ∈ w, ∃ E1 E2, hget H b = some E1 ∧ hget H2 b = some E2 ∧
          extRelShallow E1 E2 ∧ ∀ k r, (k, PValue.dictRef r) ∈ E1 → r ∈ w := by
      intro a H fs H2 fs2 w hrun
      obtain ⟨entries, es2, HE, wE, hE, hW, hH2, hw⟩ := walkHeap_succ_inv hrun
      subst hH2; subst hw
      obtain ⟨hrel, hclo, hperb⟩ := ihf.2 entries H fs es2 HE fs2 wE hW
      refine ⟨List.mem_cons_self a wE, ?_⟩
      intro b hb
      by_cases hba : b = a
      · subst hba
        refine ⟨entries, es2, hE, ?_, hrel, ?_⟩
        · rw [hget_hset_same]
        · intro k r hmem
          exact List.mem_cons_of_mem b (hclo k r hmem)
      · have hbw : b ∈ wE := by
          rcases List.mem_cons.mp hb with h1 | h2
          · exact absurd h1 hba
          · exact h2
        obtain ⟨E1, E2, h1, h2, hr, hc⟩ := hperb b hbw
        refine ⟨E1, E2, h1, ?_, hr,
          fun k r hm => List.mem_cons_of_mem a (hc k r hm)⟩
        rw [hget_hset_ne HE a es2 hba]
        exact h2
    refine ⟨hQ, ?_⟩
    intro es
    induction es with
    | nil =>
      intro H fs es2 H2 fs2 w hrun
      rw [walkHeapEntries_nil_eq] at hrun
      simp only [Option.some.injEq, Prod.mk.injEq] at hrun
      obtain ⟨hes, hH, hfs, hw⟩ := hrun
      subst hes; subst hH; subst hfs; subst hw
      exact ⟨List.Forall₂.nil,
        fun k r hmem => absurd hmem (List.not_mem_nil _),
        fun b hb => absurd hb (List.not_mem_nil _)⟩
    | cons e rest ih =>
      obtain ⟨k, v⟩ := e
      intro H fs es2 H2 fs2 w hrun
      rcases v with m | sv | bb | ho | vs | r
      case dictRef =>
        obtain ⟨HA, fsA, w1, rest2, w2, hC, hR, hes, hw⟩ :=
          walkHeapEntries_inv_ref hrun
        subst hes; subst hw
        obtain ⟨hmemr, hperb1⟩ := hQ r H fs HA fsA w1 hC
        obtain ⟨hrel2, hclo2, hperb2⟩ := ih HA fsA rest2 H2 fs2 w2 hR
        refine ⟨List.Forall₂.cons rfl hrel2, ?_, ?_⟩
        · intro k2 r2 hmem
          rcases List.mem_cons.mp hmem with hE | hm2
          · have hr2 : r2 = r := by
              have hsnd := congrArg Prod.snd hE
              exact PValue.dictRef.inj hsnd
            exact List.mem_append.mpr (Or.inl (hr2 ▸ hmemr))
          · exact List.mem_append.mpr (Or.inr (hclo2 k2 r2 hm2))
        · intro b hb
          by_cases hb2 : b ∈ w2
          · obtain ⟨E1b, E2, h1b, h2, hr2, hc2⟩ := hperb2 b hb2
            by_cases hb1 : b ∈ w1
            · obtain ⟨E1, E2A, h1, h2A, hr1, hc1⟩ := hperb1 b hb1
              have hEq : E2A = E1b := Option.some.inj (h2A.symm.trans h1b)
              refine ⟨E1, E2, h1, h2, ?_,
                fun k2 r2 hm => List.mem_append.mpr (Or.inl (hc1 k2 r2 hm))⟩
              exact extRelShallow_trans hr1 (hEq ▸ hr2)
            · have hfr := (heap_frame_all (f + 1)).1 r H fs HA fsA w1 hC b hb1
              refine ⟨E1b, E2, ?_, h2, hr2,
                fun k2 r2 hm => List.mem_append.mpr (Or.inr (hc2 k2 r2 hm))⟩
              rw [← hfr]
              exact h1b
          · have hb1 : b ∈ w1 := by
              rcases List.mem_append.mp hb with h1m | h2m
              · exact h1m
              · exact absurd h2m hb2
            obtain ⟨E1, E2, h1, h2, hr, hc⟩ := hperb1 b hb1
            refine ⟨E1, E2, h1, ?_, hr,
              fun k2 r2 hm => List.mem_append.mpr (Or.inl (hc k2 r2 hm))⟩
            rw [(heap_frame_all (f + 1)).2 rest HA fsA rest2 H2 fs2 w2 hR b hb2]
            exact h2
      all_goals
        obtain ⟨rest2, hR, hes⟩ :=
          walkHeapEntries_inv_leaf (fun r hE => PValue.noConfusion hE) hrun
        subst hes
        obtain ⟨hrel2, hclo2, hperb2⟩ := ih H _ rest2 H2 fs2 w hR
        refine ⟨List.Forall₂.cons ?_ hrel2, ?_, hperb2⟩
        · first | exact ⟨fs.next, rfl⟩ | rfl
        · intro k2 r2 hmem
          rcases List.mem_cons.mp hmem with hE | hm2
          · exact PValue.noConfusion (congrArg Prod.snd hE)
          · exact hclo2 k2 r2 hm2

/-- **C10** (counterexample to the claim as stated): a nested mapping
shared with the copy need not be mutated.  The caller's record
`{"a": [<dict at address 1>]}` nests its inner mapping inside an ordered
sequence; `insert_one` shallow-copies the top level (to fresh address 2)
and externalizes the copy, but the walker treats the sequence as an
atomic leaf, so the shared dictionary at address 1 keeps its raw
binary-valued key `"b"` unrenamed and unreplaced. -/
theorem C10_counterexample :
    insertOneHeap 3
        [(0, [(['a'], PValue.listP [PValue.dictRef 1])]),
         (1, [(['b'], PValue.binary [7])])] ⟨0, []⟩ 0 =
      some ([(2, [(['a'], PValue.listP [PValue.dictRef 1])]),
             (0, [(['a'], PValue.listP [PValue.dictRef 1])]),
             (1, [(['b'], PValue.binary [7])])], ⟨0, []⟩, 2, [2]) ∧
    hget [(2, [(['a'], PValue.listP [PValue.dictRef 1])]),
          (0, [(['a'], PValue.listP [PValue.dictRef 1])]),
          (1, [(['b'], PValue.binary [7])])] 1 =
      some [(['b'], PValue.binary [7])] := by
  constructor
  · simp [insertOneHeap, walkHeap, walkHeapEntries, hget, hset, freshAddr,
      heapExtFn, List.filter, List.find?]
  · simp [hget, List.find?]

/-- **C10** (amended): `insert_one` shields only the top level of the
caller's record.  It shallow-copies the record's mapping to a fresh
address before externalization, so the caller's top-level mapping object
is unchanged afterwards; every nested mapping object reachable from the
copy through mapping-valued entries (the walked addresses — mappings
nested inside ordered sequences are not reached) is mutated in place:
its binary-valued keys are renamed with the reserved prefix and their
payloads replaced by blob handles, all other entries, including the
references to further shared mappings, staying as they were. -/
theorem C10_insert_frame (fuel : Nat) (H : Heap) (fs : FS) (a0 : Nat)
    (E : List (Key × PValue)) (H2 : Heap) (fs2 : FS) (a1 : Nat) (w : List Nat)
    (hE : hget H a0 = some E)
    (hrun : insertOneHeap fuel H fs a0 = some (H2, fs2, a1, w))
    (ha0 : a0 ∉ w) :
    hget H2 a0 = some E ∧
    a1 ∈ w ∧
    ∀ b ∈ w, ∃ E1 E2, hget (hset H a1 E) b = some E1 ∧ hget H2 b = some E2 ∧
      extRelShallow E1 E2 ∧ ∀ k r, (k, PValue.dictRef r) ∈ E1 → r ∈ w := by
  simp only [insertOneHeap, hE] at hrun
  cases hW : walkHeap fuel (freshAddr H) (hset H (freshAddr H) E) fs with
  | none => simp only [hW] at hrun; exact absurd hrun (by simp)
  | some q =>
    obtain ⟨H2', fs2', w'⟩ := q
    simp only [hW, Option.some.injEq, Prod.mk.injEq] at hrun
    obtain ⟨hH2, hfs2, ha1, hw⟩ := hrun
    subst hH2; subst hfs2; subst hw
    subst ha1
    have ha0ne : a0 ≠ freshAddr H :=
      Nat.ne_of_lt (hget_lt_freshAddr H a0 ⟨E, hE⟩)
    refine ⟨?_, (heap_spec_all fuel).1 (freshAddr H) _ fs H2' fs2' w' hW⟩
    rw [(heap_frame_all fuel).1 (freshAddr H) _ fs H2' fs2' w' hW a0 ha0]
    rw [hget_hset_ne H (freshAddr H) E ha0ne]
    exact hE

/-- Witness for C10 at the record whose top level holds the same nested
dictionary (address 1, containing `{"c": <binary [2]>}`) under the two
keys `"b"` and `"d"`: the copy goes to address 2, the walk writes
address 2 and address 1 twice (the second visit finds the already
renamed handle and leaves it alone), address 0 is untouched, and the
shared dictionary at address 1 has its binary externalized. -/
theorem C10_insert_frame_witness :
    hget [(0, [(['b'], PValue.dictRef 1), (['d'], PValue.dictRef 1)]),
          (1, [(['c'], PValue.binary [2])])] 0 =
      some [(['b'], PValue.dictRef 1), (['d'], PValue.dictRef 1)] ∧
    insertOneHeap 5
        [(0, [(['b'], PValue.dictRef 1), (['d'], PValue.dictRef 1)]),
         (1, [(['c'], PValue.binary [2])])]
        ⟨0, []⟩ 0 =
      some ([(2, [(['b'], PValue.dictRef 1), (['d'], PValue.dictRef 1)]),
             (1, [(markerKey ++ ['c'], PValue.objectId 0)]),
             (0, [(['b'], PValue.dictRef 1), (['d'], PValue.dictRef 1)])],
            ⟨1, [(0, [2])]⟩, 2, [2, 1, 1]) ∧
    (0 : Nat) ∉ [2, 1, 1] ∧
    (hget [(2, [(['b'], PValue.dictRef 1), (['d'], PValue.dictRef 1)]),
           (1, [(markerKey ++ ['c'], PValue.objectId 0)]),
           (0, [(['b'], PValue.dictRef 1), (['d'], PValue.dictRef 1)])] 0 =
        some [(['b'], PValue.dictRef 1), (['d'], PValue.dictRef 1)] ∧
      2 ∈ [2, 1, 1] ∧
      ∀ b ∈ [2, 1, 1], ∃ E1 E2,
        hget (hset [(0, [(['b'], PValue.dictRef 1), (['d'], PValue.dictRef 1)]),
                    (1, [(['c'], PValue.binary [2])])] 2
                [(['b'], PValue.dictRef 1), (['d'], PValue.dictRef 1)]) b =
          some E1 ∧
        hget [(2, [(['b'], PValue.dictRef 1), (['d'], PValue.dictRef 1)]),
              (1, [(markerKey ++ ['c'], PValue.objectId 0)]),
              (0, [(['b'], PValue.dictRef 1), (['d'], PValue.dictRef 1)])] b =
          some E2 ∧
        extRelShallow E1 E2 ∧
        ∀ k r, (k, PValue.dictRef r) ∈ E1 → r ∈ [2, 1, 1]) := by
  have hrun : insertOneHeap 5
      [(0, [(['b'], PValue.dictRef 1), (['d'], PValue.dictRef 1)]),
       (1, [(['c'], PValue.binary [2])])]
      ⟨0, []⟩ 0 =
    some ([(2, [(['b'], PValue.dictRef 1), (['d'], PValue.dictRef 1)]),
           (1, [(markerKey ++ ['c'], PValue.objectId 0)]),
           (0, [(['b'], PValue.dictRef 1), (['d'], PValue.dictRef 1)])],
          ⟨1, [(0, [2])]⟩, 2, [2, 1, 1]) := by
    simp [insertOneHeap, walkHeap, walkHeapEntries, hget, hset, freshAddr,
      heapExtFn, FS.put, List.filter, List.find?, markerKey, startsWithKey]
  exact ⟨rfl, hrun, by decide,
    C10_insert_frame 5 _ _ 0 _ _ _ 2 [2, 1, 1] rfl hrun (by decide)⟩

example : gridfsIfy [("a".toList, .intV 1), ("b".toList, .dict [("c".toList, .binary [1, 2])])] ⟨0, []⟩ =
    some ([("a".toList, .intV 1),
           ("b".toList, .dict [(markerKey ++ "c".toList, .objectId 0)])], ⟨1, [(0, [1, 2])]⟩) := by
  simp [gridfsIfy, applyFnToNestedDict, gridFsBinaryObjects, FS.put]

example :
    ungridfsIfy [("b".toList, .dict [(markerKey ++ "c".toList, .objectId 0)])] ⟨1, [(0, [1, 2])]⟩ =
    some ([("b".toList, .dict [("c".toList, .binary [1, 2])])], ⟨1, [(0, [1, 2])]⟩) := by
  simp [ungridfsIfy, applyFnToNestedDict, populateGridFsFiles, FS.get, markerKey,
    startsWithKey, replaceAll]
